import Mathlib

/-!
# Verification of the CapFuse word-timing and caption-layout engine

Shallow embedding of `worker/timing.py` (class `TimingOptimizer`) and
`worker/ass_builder.py` (sentence grouping, cross-group overlap fix,
`estimate_reading_load`).  Python floats are modelled as exact rationals
(`ℚ`); word dictionaries become the `Word` structure.  Python's `end` key
is modelled by the field `stop` (`end` is a reserved word in Lean).
-/

namespace CapFuse

/-- One word-timing record: Python dict with keys
`word`, `start`, `end` (here `stop`) and `active` (default `True`). -/
structure Word where
  text : String
  start : ℚ
  stop : ℚ
  active : Bool := true
deriving DecidableEq, Repr, Inhabited

/-- Constructor parameters of `TimingOptimizer.__init__`. -/
structure TimingConfig where
  min_duration : ℚ
  max_duration : ℚ
  gap_merge_threshold : ℚ
  active_word_bonus : ℚ
deriving DecidableEq, Repr

/-- The default constructor arguments of `TimingOptimizer`. -/
def defaultConfig : TimingConfig :=
  { min_duration := 0.45
    max_duration := 1.5
    gap_merge_threshold := 0.10
    active_word_bonus := 0.2 }

/-- `min_dur` computed in `_apply_minimum_durations`:
`min_duration` plus `active_word_bonus` when the word is active. -/
def effectiveMin (cfg : TimingConfig) (w : Word) : ℚ :=
  cfg.min_duration + (if w.active then cfg.active_word_bonus else 0)

/-- `TimingOptimizer._apply_minimum_durations`. -/
def applyMinimumDurations (cfg : TimingConfig) (words : List Word) : List Word :=
  words.map fun w =>
    if w.stop - w.start < effectiveMin cfg w then
      { w with stop := w.start + effectiveMin cfg w }
    else w

/-- Loop body of `_merge_short_gaps`: `prev` is `merged_words[-1]`
(still carrying its original `end` when its gap is examined). -/
def mergeGo (threshold : ℚ) (prev : Word) : List Word → List Word
  | [] => [prev]
  | cur :: rest =>
    if cur.start - prev.stop ≤ threshold then
      { prev with stop := cur.start } :: mergeGo threshold cur rest
    else
      prev :: mergeGo threshold cur rest

/-- `TimingOptimizer._merge_short_gaps`. -/
def mergeShortGaps (cfg : TimingConfig) (words : List Word) : List Word :=
  match words with
  | [] => []
  | w :: rest => mergeGo cfg.gap_merge_threshold w rest

/-- The per-word adjustment of `_resolve_overlaps`: `w` overlapping its
successor `nxt` is truncated at the 70/30 split point minus a 50 ms
buffer; if that leaves it under 75 % of `min_duration` its start is
pulled back, floored at the previous *output* word's end + 50 ms
(`prevStop = some pe`) or at 0 for the first word (`prevStop = none`). -/
def resolveStep (cfg : TimingConfig) (prevStop : Option ℚ) (w nxt : Word) : Word :=
  if nxt.start < w.stop then
    let splitPoint := nxt.start + (w.stop - nxt.start) * 0.3
    let w1 : Word := { w with stop := splitPoint - 0.05 }
    if w1.stop - w1.start < cfg.min_duration * 0.75 then
      let potential := w1.stop - cfg.min_duration * 0.75
      match prevStop with
      | some pe => { w1 with start := max potential (pe + 0.05) }
      | none => { w1 with start := max potential 0 }
    else w1
  else w

/-- Loop of `_resolve_overlaps`; the last word (no successor) is copied
unchanged. -/
def resolveGo (cfg : TimingConfig) (prevStop : Option ℚ) : List Word → List Word
  | [] => []
  | [w] => [w]
  | w :: nxt :: rest =>
    let cur := resolveStep cfg prevStop w nxt
    cur :: resolveGo cfg (some cur.stop) (nxt :: rest)

/-- `TimingOptimizer._resolve_overlaps`. -/
def resolveOverlaps (cfg : TimingConfig) (words : List Word) : List Word :=
  resolveGo cfg none words

/-- `TimingOptimizer._apply_maximum_durations`. -/
def applyMaximumDurations (cfg : TimingConfig) (words : List Word) : List Word :=
  words.map fun w =>
    if cfg.max_duration < w.stop - w.start then
      { w with stop := w.start + cfg.max_duration }
    else w

/-- Loop body of `_clamp_to_clip_duration` for one word: clamp `end` to
the clip, drop the word if it starts at or past the clip, and pull
`start` back to `max 0 (end - 0.1)` when the clamped duration is under
100 ms. -/
def clampWord (clip : ℚ) (w : Word) : Option Word :=
  let w1 : Word := if clip < w.stop then { w with stop := clip } else w
  if clip ≤ w1.start then none
  else if w1.stop - w1.start < 0.1 then
    some { w1 with start := max 0 (w1.stop - 0.1) }
  else some w1

/-- `TimingOptimizer._clamp_to_clip_duration`. -/
def clampToClipDuration (words : List Word) (clip : ℚ) : List Word :=
  words.filterMap (clampWord clip)

/-- `TimingOptimizer._validate_timing`: repair `end ≤ start` to
`end = start + 0.3`, then clamp a negative `start` to 0 extending
`end` to at least 0.3. -/
def validateTiming (words : List Word) : List Word :=
  words.map fun w =>
    let w1 : Word := if w.stop ≤ w.start then { w with stop := w.start + 0.3 } else w
    if w1.start < 0 then { w1 with start := 0, stop := max w1.stop 0.3 } else w1

/-- The sort key relation of `sorted(words_data, key=lambda w: w['start'])`. -/
def byStart (a b : Word) : Prop := a.start ≤ b.start

instance : DecidableRel byStart := fun a b => inferInstanceAs (Decidable (a.start ≤ b.start))

instance : IsTotal Word byStart := ⟨fun a b => le_total a.start b.start⟩

instance : IsTrans Word byStart := ⟨fun _ _ _ h h' => le_trans h h'⟩

/-- Python's stable `sorted` by the `start` key (modelled by the stable
insertion sort on the same key). -/
def sortByStart (words : List Word) : List Word :=
  words.insertionSort byStart

/-- `TimingOptimizer.optimize_timing`.  A `clip_duration` of `none`
models Python `None`; note that `if clip_duration:` also rejects `0.0`,
so `some 0` performs no clamping. -/
def optimizeTiming (cfg : TimingConfig) (wordsData : List Word)
    (clipDuration : Option ℚ) : List Word :=
  match wordsData with
  | [] => []
  | _ :: _ =>
    let w1 := sortByStart wordsData
    let w2 := applyMinimumDurations cfg w1
    let w3 := mergeShortGaps cfg w2
    let w4 := resolveOverlaps cfg w3
    let w5 := applyMaximumDurations cfg w4
    let w6 := match clipDuration with
      | some clip => if clip = 0 then w5 else clampToClipDuration w5 clip
      | none => w5
    validateTiming w6

/-! ## Sentence grouping (`ASSBuilder._group_words_into_sentences`) -/

/-- The last word of the current group `first :: rest`
(`current_group[-1]` in the Python loop). -/
def lastWord (first : Word) (rest : List Word) : Word :=
  rest.getLastD first

/-- The break test of `_group_words_into_sentences` for a non-empty
current group `first :: rest` and incoming word `w`:
`len(current_group) >= 6`, or `w.start - current_group[0].start > 3.5`,
or `w.start - current_group[-1].end > 0.8`. -/
def shouldBreakGroup (first : Word) (rest : List Word) (w : Word) : Prop :=
  6 ≤ (first :: rest).length ∨
    3.5 < w.start - first.start ∨
    0.8 < w.start - (lastWord first rest).stop

instance (first : Word) (rest : List Word) (w : Word) :
    Decidable (shouldBreakGroup first rest w) := by
  unfold shouldBreakGroup; infer_instance

/-- The accumulation loop of `_group_words_into_sentences`; the current
group is `first :: rest` (always non-empty). -/
def groupLoop (first : Word) (rest : List Word) : List Word → List (List Word)
  | [] => [first :: rest]
  | w :: ws =>
    if shouldBreakGroup first rest w then
      (first :: rest) :: groupLoop w [] ws
    else
      groupLoop first (rest ++ [w]) ws

/-- The grouping pass of `_group_words_into_sentences`, before the
cross-group overlap fix. -/
def groupWordsRaw : List Word → List (List Word)
  | [] => []
  | w :: ws => groupLoop w [] ws

/-- `start` of a group's first word (0 for an empty group, unused). -/
def groupFirstStart (g : List Word) : ℚ :=
  ((g.head?).map Word.start).getD 0

/-- `end` of a group's last word (0 for an empty group, unused). -/
def groupLastStop (g : List Word) : ℚ :=
  ((g.getLast?).map Word.stop).getD 0

/-- The truncation step of `_fix_sentence_timing_overlaps` applied to a
group `g` whose (original) successor group starts at `nextStart`: if the
last word's `end` reaches `nextStart`, set it to `nextStart - 0.05`; pop
that word when this makes `end ≤ start`. -/
def truncGroup (g : List Word) (nextStart : ℚ) : List Word :=
  match g.getLast? with
  | none => g
  | some lw =>
    if nextStart ≤ lw.stop then
      let lw' : Word := { lw with stop := nextStart - 0.05 }
      if lw'.stop ≤ lw'.start then g.dropLast
      else g.dropLast ++ [lw']
    else g

/-- The iteration of `_fix_sentence_timing_overlaps` over the group
list: empty groups are skipped, a group followed by a non-empty group is
truncated against that group's (original) first start, and a group
emptied by the pop is dropped. -/
def fixLoop : List (List Word) → List (List Word)
  | [] => []
  | [g] => if g.isEmpty then [] else [g]
  | g :: g' :: rest =>
    if g.isEmpty then fixLoop (g' :: rest)
    else if g'.isEmpty then g :: fixLoop (g' :: rest)
    else
      let fg := truncGroup g (groupFirstStart g')
      if fg.isEmpty then fixLoop (g' :: rest)
      else fg :: fixLoop (g' :: rest)

/-- `ASSBuilder._fix_sentence_timing_overlaps` (early-returns lists of
at most one group unchanged). -/
def fixSentenceTimingOverlaps (groups : List (List Word)) : List (List Word) :=
  if groups.length ≤ 1 then groups else fixLoop groups

/-- `ASSBuilder._group_words_into_sentences` (grouping followed by the
cross-group overlap fix). -/
def groupWordsIntoSentences (words : List Word) : List (List Word) :=
  match words with
  | [] => []
  | _ :: _ => fixSentenceTimingOverlaps (groupWordsRaw words)

/-! ## `estimate_reading_load` (`ass_builder.py`) -/

/-- The dictionary returned by `estimate_reading_load` on a non-empty
word list. -/
structure ReadingLoad where
  total_words : ℕ
  active_words : ℕ
  words_per_second : ℚ
  avg_word_duration_ms : ℚ
  reading_difficulty : String
  total_duration : ℚ
  recommended_min_duration : ℚ
deriving DecidableEq, Repr

/-- `estimate_reading_load`; Python returns `{}` on an empty list,
modelled as `none`. -/
def estimateReadingLoad (words : List Word) : Option ReadingLoad :=
  match words with
  | [] => none
  | w0 :: _ =>
    let totalDuration := (lastWord w0 words.tail).stop - w0.start
    let activeWords := words.filter fun w => w.active
    let wordsPerSecond :=
      if 0 < totalDuration then (activeWords.length : ℚ) / totalDuration else 0
    let avgWordDuration :=
      if activeWords.length = 0 then 0
      else (activeWords.map fun w => w.stop - w.start).sum / (activeWords.length : ℚ)
    let difficulty :=
      if 3.5 < wordsPerSecond then "Very Hard"
      else if 2.5 < wordsPerSecond then "Hard"
      else if 1.5 < wordsPerSecond then "Medium"
      else "Easy"
    some
      { total_words := words.length
        active_words := activeWords.length
        words_per_second := wordsPerSecond
        avg_word_duration_ms := avgWordDuration * 1000
        reading_difficulty := difficulty
        total_duration := totalDuration
        recommended_min_duration := if 2.5 < wordsPerSecond then 0.4 else 0.3 }

/-! ## Auxiliary specification predicates used by the theorems -/

/-- The break relation that holds between two *adjacent* groups emitted
by the grouping pass: the earlier group was closed exactly because the
later group's first word triggered one of the three break conditions. -/
def brkBetween (g g' : List Word) : Prop :=
  6 ≤ g.length ∨
    3.5 < groupFirstStart g' - groupFirstStart g ∨
    0.8 < groupFirstStart g' - groupLastStop g

instance (g g' : List Word) : Decidable (brkBetween g g') := by
  unfold brkBetween; infer_instance

/-- Within one group, no word after the first satisfied a break
condition when it was appended: `first` is the group's first word, `n`
the length of the group so far and `last` its last word so far. -/
def noBreakGo (first : Word) (n : ℕ) (last : Word) : List Word → Prop
  | [] => True
  | w :: ws =>
    (n < 6 ∧ w.start - first.start ≤ 3.5 ∧ w.start - last.stop ≤ 0.8) ∧
      noBreakGo first (n + 1) w ws

/-- A group in which no internal word triggered a break condition. -/
def noInternalBreak : List Word → Prop
  | [] => True
  | f :: rest => noBreakGo f 1 f rest

/-- Identity of a group's first word (text and start); the overlap fix
may change the first word's `end` (singleton groups) but nothing else. -/
def headSig (g : List Word) : Option (String × ℚ) :=
  g.head?.map fun w => (w.text, w.start)

/-- Start-pullback discipline of `_resolve_overlaps`: every output word
keeps its input start unless the overlap shrink pulled it back, in which
case it is floored at the previous *output* word's end + 50 ms (at 0 for
the first word); the final word is returned unchanged, and output and
input have the same length. -/
def StartBounds (cfg : TimingConfig) : Option ℚ → List Word → List Word → Prop
  | _, [], [] => True
  | _, [v], [w] => w = v
  | prevStop, v :: v' :: vs, w :: outRest =>
    (w.start = v.start ∨
      match prevStop with
      | none => 0 ≤ w.start
      | some pe => pe + 0.05 ≤ w.start) ∧
      StartBounds cfg (some w.stop) (v' :: vs) outRest
  | _, _, _ => False

/-- The C10 scenario: five active words spanning 2.3 s. -/
def fiveActiveWords : List Word :=
  [⟨"a", 0, 0.4, true⟩, ⟨"b", 0.5, 0.9, true⟩, ⟨"c", 1.0, 1.4, true⟩,
    ⟨"d", 1.5, 1.9, true⟩, ⟨"e", 2.0, 2.3, true⟩]

/-- The reading-load record returned on the C10 scenario. -/
def loadC10 : ReadingLoad :=
  { total_words := 5
    active_words := 5
    words_per_second := 50 / 23
    avg_word_duration_ms := 380
    reading_difficulty := "Medium"
    total_duration := 2.3
    recommended_min_duration := 0.3 }

/-- The C9 scenario: seven words, each 0.3 s long, back to back. -/
def sevenEvenWords : List Word :=
  [⟨"w1", 0, 0.3, true⟩, ⟨"w2", 0.3, 0.6, true⟩, ⟨"w3", 0.6, 0.9, true⟩,
    ⟨"w4", 0.9, 1.2, true⟩, ⟨"w5", 1.2, 1.5, true⟩, ⟨"w6", 1.5, 1.8, true⟩,
    ⟨"w7", 1.8, 2.1, true⟩]

/-- `start` of a group's last word (0 for an empty group, unused). -/
def groupLastStart (g : List Word) : ℚ :=
  ((g.getLast?).map Word.start).getD 0

/-- Side condition under which the truncation of the overlap fix never
pops a word: the earlier group's last word either ends before the next
group's first start (no truncation at all) or starts early enough that
the truncated duration stays positive. -/
def noPopBetween (g g' : List Word) : Prop :=
  groupLastStop g < groupFirstStart g' ∨
    groupLastStart g < groupFirstStart g' - 0.05

/-! ## Helper lemmas -/

theorem map_id_of {α : Type} (f : α → α) (l : List α) (h : ∀ x ∈ l, f x = x) :
    l.map f = l := by
  induction l with
  | nil => rfl
  | cons a t ih =>
    simp only [List.map_cons, h a (List.mem_cons_self a t),
      ih fun x hx => h x (List.mem_cons_of_mem a hx)]

theorem validateTiming_mem {ws : List Word} {w : Word} (h : w ∈ validateTiming ws) :
    0 ≤ w.start ∧ w.start < w.stop := by
  simp only [validateTiming, List.mem_map] at h
  obtain ⟨v, -, rfl⟩ := h
  split_ifs with h1 h2 h3 <;> (try dsimp only) <;> constructor <;>
    linarith [le_max_right v.stop (0.3 : ℚ), le_max_right (v.start + 0.3) (0.3 : ℚ)]

/-! ## Claim C8 -/

/-- Claim C8: `optimize_timing` is total with repair semantics — an
empty input yields an empty output, and every word in its output
satisfies `end > start` and `start ≥ 0`, for every configuration, clip
duration and input (including negative and non-positive-duration
timings).  Totality itself is inherent in the embedding: every phase is
a total function. -/
theorem c8_total_with_repair (cfg : TimingConfig) (clip : Option ℚ) (ws : List Word) :
    optimizeTiming cfg [] clip = [] ∧
      ∀ w ∈ optimizeTiming cfg ws clip, 0 ≤ w.start ∧ w.start < w.stop := by
  refine ⟨rfl, ?_⟩
  intro w hw
  match ws with
  | [] => simp [optimizeTiming] at hw
  | v :: vs =>
    exact validateTiming_mem hw

/-- Witness for C8 at a concrete degenerate input (negative times). -/
theorem c8_total_with_repair_witness :
    (⟨"a", 0, 0.3, true⟩ : Word) ∈
        optimizeTiming defaultConfig [⟨"a", -1, -0.9, true⟩] none ∧
      0 ≤ (⟨"a", 0, 0.3, true⟩ : Word).start ∧
        (⟨"a", 0, 0.3, true⟩ : Word).start < (⟨"a", 0, 0.3, true⟩ : Word).stop :=
  ⟨by norm_num [optimizeTiming, sortByStart, List.insertionSort, List.orderedInsert, byStart,
    applyMinimumDurations, effectiveMin, mergeShortGaps, mergeGo, resolveOverlaps, resolveGo,
    resolveStep, applyMaximumDurations, clampToClipDuration, clampWord, validateTiming,
    defaultConfig],
    (c8_total_with_repair defaultConfig none [⟨"a", -1, -0.9, true⟩]).2
      ⟨"a", 0, 0.3, true⟩
      (by norm_num [optimizeTiming, sortByStart, List.insertionSort, List.orderedInsert, byStart,
    applyMinimumDurations, effectiveMin, mergeShortGaps, mergeGo, resolveOverlaps, resolveGo,
    resolveStep, applyMaximumDurations, clampToClipDuration, clampWord, validateTiming,
    defaultConfig])⟩

/-! ## Counterexamples for claims C1, C2, C3, C5, C6, C7 -/

/-- Counterexample to claim C1: with the default configuration and no
clip duration, two words sharing a start time come out overlapping —
the merge phase shrinks the first word to zero duration and the final
validation then re-extends its `end` by 0.3 s past the second word's
start, so `end[0] > start[1]` in the output. -/
theorem c1_counterexample :
    ¬ List.Chain' (fun a b : Word => a.stop ≤ b.start)
      (optimizeTiming defaultConfig
        [⟨"a", 0, 0.65, true⟩, ⟨"b", 0, 0.65, true⟩] none) := by
  norm_num [optimizeTiming, sortByStart, List.insertionSort, List.orderedInsert, byStart,
    applyMinimumDurations, effectiveMin, mergeShortGaps, mergeGo, resolveOverlaps, resolveGo,
    resolveStep, applyMaximumDurations, clampToClipDuration, clampWord, validateTiming,
    defaultConfig,
    List.chain'_cons, List.chain'_singleton]

/-- Counterexample to claim C2: with the default configuration and no
clip duration, the gap-merge phase shrinks the first (non-final) output
word to a duration of 0.05 s, far below its effective minimum duration
of 0.65 s, so the minimum-duration guarantee does not hold on the final
output. -/
theorem c2_counterexample :
    optimizeTiming defaultConfig
        [⟨"a", 0, 0.65, true⟩, ⟨"b", 0.05, 0.7, true⟩] none =
      [⟨"a", 0, 0.05, true⟩, ⟨"b", 0.05, 0.7, true⟩] ∧
      (0.05 : ℚ) - 0 < effectiveMin defaultConfig ⟨"a", 0, 0.05, true⟩ := by
  norm_num [optimizeTiming, sortByStart, List.insertionSort, List.orderedInsert, byStart,
    applyMinimumDurations, effectiveMin, mergeShortGaps, mergeGo, resolveOverlaps, resolveGo,
    resolveStep, applyMaximumDurations, clampToClipDuration, clampWord, validateTiming,
    defaultConfig]

/-- Counterexample to claim C3: `optimize_timing` is not idempotent.  A
single word with a negative start is repaired to `[0, 0.3]` on the
first run, and the second run re-extends it to the minimum duration
`[0, 0.65]`, so the first output is not a fixed point. -/
theorem c3_counterexample :
    optimizeTiming defaultConfig [⟨"a", -1, -0.9, true⟩] none =
        [⟨"a", 0, 0.3, true⟩] ∧
      optimizeTiming defaultConfig
          (optimizeTiming defaultConfig [⟨"a", -1, -0.9, true⟩] none) none =
        [⟨"a", 0, 0.65, true⟩] ∧
      optimizeTiming defaultConfig
          (optimizeTiming defaultConfig [⟨"a", -1, -0.9, true⟩] none) none ≠
        optimizeTiming defaultConfig [⟨"a", -1, -0.9, true⟩] none := by
  norm_num [optimizeTiming, sortByStart, List.insertionSort, List.orderedInsert, byStart,
    applyMinimumDurations, effectiveMin, mergeShortGaps, mergeGo, resolveOverlaps, resolveGo,
    resolveStep, applyMaximumDurations, clampToClipDuration, clampWord, validateTiming,
    defaultConfig]

/-- Counterexample to claim C5: with `gapMergeThreshold = 0` the merge
phase is *not* skipped, and on overlapping input it moves the earlier
word's `end` backward (from 1 to 0.5), so neither the "skipped when
`<= 0`" nor the "never moves an end backward" part holds. -/
theorem c5_counterexample :
    mergeShortGaps { defaultConfig with gap_merge_threshold := 0 }
        [⟨"a", 0, 1, true⟩, ⟨"b", 0.5, 2, true⟩] =
      [⟨"a", 0, 0.5, true⟩, ⟨"b", 0.5, 2, true⟩] ∧
      (0.5 : ℚ) < 1 := by
  norm_num [mergeShortGaps, mergeGo, defaultConfig]

/-- Counterexample to claim C6: the shrink test of `_resolve_overlaps`
uses `0.75 * minDuration` without the active-word bonus.  Here the
middle (active) word is truncated to duration 0.4, which is below 75 %
of its claimed effective minimum (0.75 × 0.65 = 0.4875), yet its start
is left unchanged because 0.4 ≥ 0.75 × 0.45 = 0.3375. -/
theorem c6_counterexample :
    resolveOverlaps defaultConfig
        [⟨"a", 0, 0.1, true⟩, ⟨"b", 0.2, 1, true⟩, ⟨"c", 0.5, 2, true⟩] =
      [⟨"a", 0, 0.1, true⟩, ⟨"b", 0.2, 0.6, true⟩, ⟨"c", 0.5, 2, true⟩] ∧
      (0.6 : ℚ) - 0.2 < 0.75 * effectiveMin defaultConfig ⟨"b", 0.2, 1, true⟩ := by
  norm_num [resolveOverlaps, resolveGo, resolveStep, effectiveMin, defaultConfig]

/-- Counterexample to claim C7: a supplied `clipDuration` of `0.0` is
falsy in Python (`if clip_duration:`), so no clamping happens at all —
the output keeps a word whose `end` exceeds the clip duration and whose
`start` is not below it. -/
theorem c7_counterexample :
    optimizeTiming defaultConfig [⟨"a", 1, 2, true⟩] (some 0) =
        [⟨"a", 1, 2, true⟩] ∧
      (0 : ℚ) < (⟨"a", 1, 2, true⟩ : Word).stop ∧
      (0 : ℚ) ≤ (⟨"a", 1, 2, true⟩ : Word).start := by
  norm_num [optimizeTiming, sortByStart, List.insertionSort, List.orderedInsert, byStart,
    applyMinimumDurations, effectiveMin, mergeShortGaps, mergeGo, resolveOverlaps, resolveGo,
    resolveStep, applyMaximumDurations, clampToClipDuration, clampWord, validateTiming,
    defaultConfig]

/-! ## Claim C2 (amended) -/

/-- Claim C2, amended: the minimum-duration guarantee holds at the
output of the minimum-duration phase itself — every word leaving
`_apply_minimum_durations` has `end - start ≥ minDuration` plus the
`activeWordBonus` when active.  (Later phases may shrink words again;
see the counterexample.) -/
theorem c2_min_duration_amended (cfg : TimingConfig) (ws : List Word) :
    ∀ w ∈ applyMinimumDurations cfg ws, effectiveMin cfg w ≤ w.stop - w.start := by
  intro w hw
  simp only [applyMinimumDurations, List.mem_map] at hw
  obtain ⟨v, -, rfl⟩ := hw
  split_ifs with h
  · simp only [effectiveMin] at h ⊢
    linarith
  · linarith

/-- Witness for the amended C2 at a concrete short word. -/
theorem c2_min_duration_amended_witness :
    (⟨"a", 0, 0.65, true⟩ : Word) ∈
        applyMinimumDurations defaultConfig [⟨"a", 0, 0.1, true⟩] ∧
      effectiveMin defaultConfig ⟨"a", 0, 0.65, true⟩ ≤
        (⟨"a", 0, 0.65, true⟩ : Word).stop - (⟨"a", 0, 0.65, true⟩ : Word).start :=
  ⟨by norm_num [applyMinimumDurations, effectiveMin, defaultConfig],
    c2_min_duration_amended defaultConfig [⟨"a", 0, 0.1, true⟩] ⟨"a", 0, 0.65, true⟩
      (by norm_num [applyMinimumDurations, effectiveMin, defaultConfig])⟩

/-! ## Claim C6 (amended) -/

/-- Start bound satisfied by one `resolveStep`: the start is unchanged
unless the pull-back fired, in which case it is floored at
`prevStop + 0.05` (`0` when there is no previous output word). -/
theorem resolveStep_start (cfg : TimingConfig) (prevStop : Option ℚ) (w nxt : Word) :
    (resolveStep cfg prevStop w nxt).start = w.start ∨
      (match prevStop with
        | none => 0 ≤ (resolveStep cfg prevStop w nxt).start
        | some pe => pe + 0.05 ≤ (resolveStep cfg prevStop w nxt).start) := by
  cases prevStop <;>
    · dsimp only [resolveStep]
      split_ifs with h1 h2
      · exact Or.inr (le_max_right _ _)
      · exact Or.inl rfl
      · exact Or.inl rfl

/-- `resolveGo` satisfies the start-pullback discipline. -/
theorem resolveGo_startBounds (cfg : TimingConfig) :
    ∀ (prevStop : Option ℚ) (ws : List Word),
      StartBounds cfg prevStop ws (resolveGo cfg prevStop ws)
  | _, [] => trivial
  | _, [_] => rfl
  | prevStop, v :: v' :: vs => by
    show StartBounds cfg prevStop (v :: v' :: vs)
      (resolveStep cfg prevStop v v' ::
        resolveGo cfg (some (resolveStep cfg prevStop v v').stop) (v' :: vs))
    exact ⟨resolveStep_start cfg prevStop v v',
      resolveGo_startBounds cfg (some (resolveStep cfg prevStop v v').stop) (v' :: vs)⟩

/-- Claim C6, amended: `_resolve_overlaps` obeys the start-pullback
discipline `StartBounds`: every output word keeps its input start
unless pulled back, and a pulled-back start is floored at the previous
output word's `end + 50 ms` for a non-first word (no additional floor
at 0) and at 0 for the first word; the final word is unchanged.  The
75 % shrink test uses `minDuration` alone — the counterexample shows
the active-word bonus is not included. -/
theorem c6_resolve_bounds_amended (cfg : TimingConfig) (ws : List Word) :
    StartBounds cfg none ws (resolveOverlaps cfg ws) :=
  resolveGo_startBounds cfg none ws

/-! ## Claim C7 (amended) -/

/-- The clamp-phase invariant for a single word. -/
theorem clampWord_spec (clip : ℚ) (hclip : 0 < clip) (v w : Word)
    (hv : clampWord clip v = some w) :
    w.stop ≤ clip ∧ w.start < clip ∧ (0.1 ≤ w.stop - w.start ∨ w.start = 0) := by
  simp only [clampWord] at hv
  by_cases h1 : clip < v.stop <;>
    simp only [h1, if_true, if_false, ite_true, ite_false] at hv
  · split_ifs at hv with h2 h3
    · obtain rfl := Option.some.inj hv
      dsimp only
      refine ⟨le_rfl, ?_, ?_⟩
      · exact max_lt hclip (by linarith)
      · rcases le_total (0 : ℚ) (clip - 0.1) with hc | hc
        · exact Or.inl (by rw [max_eq_right hc]; linarith)
        · exact Or.inr (max_eq_left hc)
    · obtain rfl := Option.some.inj hv
      exact ⟨le_rfl, by simpa using h2, Or.inl (by simpa using not_lt.1 h3)⟩
  · split_ifs at hv with h2 h3
    · obtain rfl := Option.some.inj hv
      dsimp only
      refine ⟨not_lt.1 h1, ?_, ?_⟩
      · exact max_lt hclip (by linarith [not_lt.1 h1])
      · rcases le_total (0 : ℚ) (v.stop - 0.1) with hc | hc
        · exact Or.inl (by rw [max_eq_right hc]; linarith)
        · exact Or.inr (max_eq_left hc)
    · obtain rfl := Option.some.inj hv
      exact ⟨not_lt.1 h1, not_le.1 h2, Or.inl (not_lt.1 h3)⟩

/-- Claim C7, amended: the clamp-phase invariant.  For a positive clip
duration, every surviving word of `_clamp_to_clip_duration` has
`end ≤ clip` and `start < clip`, and its duration is at least 100 ms
unless its start was floored at 0.  (The end-to-end claim fails: a clip
duration of 0.0 is falsy and disables the phase, see counterexample.) -/
theorem c7_clip_clamp_amended (clip : ℚ) (hclip : 0 < clip) (ws : List Word) :
    ∀ w ∈ clampToClipDuration ws clip,
      w.stop ≤ clip ∧ w.start < clip ∧ (0.1 ≤ w.stop - w.start ∨ w.start = 0) := by
  intro w hw
  simp only [clampToClipDuration, List.mem_filterMap] at hw
  obtain ⟨v, -, hv⟩ := hw
  exact clampWord_spec clip hclip v w hv

/-- Witness for the amended C7 at a concrete clip. -/
theorem c7_clip_clamp_amended_witness :
    (0 : ℚ) < 1 ∧
      ((⟨"a", 0, 0.5, true⟩ : Word) ∈
          clampToClipDuration [⟨"a", 0, 0.5, true⟩] 1 ∧
        ((⟨"a", 0, 0.5, true⟩ : Word).stop ≤ 1 ∧
          (⟨"a", 0, 0.5, true⟩ : Word).start < 1 ∧
          (0.1 ≤ (⟨"a", 0, 0.5, true⟩ : Word).stop - (⟨"a", 0, 0.5, true⟩ : Word).start ∨
            (⟨"a", 0, 0.5, true⟩ : Word).start = 0))) :=
  ⟨by norm_num,
    ⟨by norm_num [clampToClipDuration, clampWord],
      c7_clip_clamp_amended 1 (by norm_num) [⟨"a", 0, 0.5, true⟩] ⟨"a", 0, 0.5, true⟩
        (by norm_num [clampToClipDuration, clampWord])⟩⟩

/-! ## Claim C5 (amended) -/

/-- Gap merging never changes any word's start (in particular it never
changes the later word of a merged pair). -/
theorem mergeGo_map_start (t : ℚ) : ∀ (p : Word) (ws : List Word),
    (mergeGo t p ws).map Word.start = p.start :: ws.map Word.start
  | _, [] => rfl
  | p, cur :: rest => by
    dsimp only [mergeGo]
    split_ifs with h <;>
      simp only [List.map_cons, mergeGo_map_start t cur rest]

/-- On non-overlapping input, gap merging only ever moves ends forward. -/
theorem mergeGo_stop_mono (t : ℚ) : ∀ (p : Word) (ws : List Word),
    List.Chain' (fun a b => a.stop ≤ b.start) (p :: ws) →
    List.Forall₂ (fun v w => v.stop ≤ w.stop) (p :: ws) (mergeGo t p ws)
  | p, [], _ => by
    dsimp only [mergeGo]
    exact List.Forall₂.cons le_rfl List.Forall₂.nil
  | p, cur :: rest, h => by
    obtain ⟨hpc, hrest⟩ := List.chain'_cons.1 h
    dsimp only [mergeGo]
    split_ifs with hg
    · exact List.Forall₂.cons hpc (mergeGo_stop_mono t cur rest hrest)
    · exact List.Forall₂.cons le_rfl (mergeGo_stop_mono t cur rest hrest)

/-- Claim C5, amended: `_merge_short_gaps` never changes any word's
start, and on non-overlapping input it only ever extends ends forward
(the merged earlier word grows to the later word's start).  It is *not*
the identity for `gapMergeThreshold ≤ 0`, and on overlapping input it
can move an end backward — see the counterexample. -/
theorem c5_gap_merge_amended (cfg : TimingConfig) (ws : List Word) :
    (mergeShortGaps cfg ws).map Word.start = ws.map Word.start ∧
      (List.Chain' (fun a b => a.stop ≤ b.start) ws →
        List.Forall₂ (fun v w => v.stop ≤ w.stop) ws (mergeShortGaps cfg ws)) := by
  cases ws with
  | nil => exact ⟨rfl, fun _ => List.Forall₂.nil⟩
  | cons p rest =>
    exact ⟨mergeGo_map_start _ p rest, fun hch => mergeGo_stop_mono _ p rest hch⟩

/-- Witness for the amended C5 at a concrete non-overlapping list. -/
theorem c5_gap_merge_amended_witness :
    (mergeShortGaps defaultConfig [⟨"a", 0, 0.3, true⟩, ⟨"b", 0.35, 0.8, true⟩]).map
        Word.start =
      ([⟨"a", 0, 0.3, true⟩, ⟨"b", 0.35, 0.8, true⟩] : List Word).map Word.start ∧
      List.Forall₂ (fun v w : Word => v.stop ≤ w.stop)
        ([⟨"a", 0, 0.3, true⟩, ⟨"b", 0.35, 0.8, true⟩] : List Word)
        (mergeShortGaps defaultConfig [⟨"a", 0, 0.3, true⟩, ⟨"b", 0.35, 0.8, true⟩]) :=
  ⟨(c5_gap_merge_amended defaultConfig [⟨"a", 0, 0.3, true⟩, ⟨"b", 0.35, 0.8, true⟩]).1,
    (c5_gap_merge_amended defaultConfig [⟨"a", 0, 0.3, true⟩, ⟨"b", 0.35, 0.8, true⟩]).2
      (by norm_num [List.chain'_cons, List.chain'_singleton])⟩

/-! ## Claim C3 (amended) -/

/-- With a non-negative threshold, gap merging is the identity on lists
whose adjacent words are either touching or separated by more than the
threshold. -/
theorem mergeGo_id {t : ℚ} (ht : 0 ≤ t) : ∀ (p : Word) (ws : List Word),
    List.Chain' (fun a b => a.stop = b.start ∨ a.stop + t < b.start) (p :: ws) →
    mergeGo t p ws = p :: ws
  | _, [], _ => rfl
  | p, cur :: rest, h => by
    obtain ⟨hpc, hrest⟩ := List.chain'_cons.1 h
    dsimp only [mergeGo]
    rcases hpc with he | hlt
    · rw [if_pos (by rw [← he]; simpa using ht), mergeGo_id ht cur rest hrest, ← he]
    · rw [if_neg (by push_neg; linarith), mergeGo_id ht cur rest hrest]

/-- A word that does not overlap its successor is returned unchanged by
the overlap-resolution step. -/
theorem resolveStep_no_overlap (cfg : TimingConfig) (prevStop : Option ℚ) {w nxt : Word}
    (h : w.stop ≤ nxt.start) : resolveStep cfg prevStop w nxt = w := by
  unfold resolveStep
  rw [if_neg (not_lt.2 h)]

/-- Overlap resolution is the identity on non-overlapping lists. -/
theorem resolveGo_id (cfg : TimingConfig) : ∀ (prevStop : Option ℚ) (ws : List Word),
    List.Chain' (fun a b => a.stop ≤ b.start) ws →
    resolveGo cfg prevStop ws = ws
  | _, [], _ => rfl
  | _, [_], _ => rfl
  | prevStop, w :: nxt :: rest, h => by
    obtain ⟨hw, hrest⟩ := List.chain'_cons.1 h
    dsimp only [resolveGo]
    rw [resolveStep_no_overlap cfg prevStop hw, resolveGo_id cfg (some w.stop) (nxt :: rest) hrest]

/-- The minimum-duration phase is the identity when durations already
meet the effective minimum. -/
theorem applyMin_id (cfg : TimingConfig) (ws : List Word)
    (h : ∀ w ∈ ws, effectiveMin cfg w ≤ w.stop - w.start) :
    applyMinimumDurations cfg ws = ws :=
  map_id_of _ ws fun w hw => if_neg (not_lt.2 (h w hw))

/-- The maximum-duration phase is the identity when durations already
respect the maximum. -/
theorem applyMax_id (cfg : TimingConfig) (ws : List Word)
    (h : ∀ w ∈ ws, w.stop - w.start ≤ cfg.max_duration) :
    applyMaximumDurations cfg ws = ws :=
  map_id_of _ ws fun w hw => if_neg (not_lt.2 (h w hw))

/-- Validation is the identity on words with non-negative starts and
positive durations. -/
theorem validateTiming_id (ws : List Word)
    (h : ∀ w ∈ ws, 0 ≤ w.start ∧ w.start < w.stop) :
    validateTiming ws = ws :=
  map_id_of _ ws fun w hw => by
    dsimp only
    rw [if_neg (not_le.2 (h w hw).2), if_neg (not_lt.2 (h w hw).1)]

/-- Claim C3, amended: `optimize_timing` is not idempotent in general
(see the counterexample), but every already-normalized sequence is a
fixed point: with no clip duration and a non-negative
`gapMergeThreshold`, a sequence that is sorted by start, with
non-negative starts and positive durations, every duration within
`[effectiveMin, maxDuration]`, and adjacent words either touching or
separated by more than the threshold, is returned unchanged.  The
condition is sufficient only — some non-normalized sequences are also
fixed points (e.g. `[0, 0.05], [0.05, 0.7]` under the defaults, where
the minimum-duration extension of the first word is undone by gap
merging). -/
theorem c3_fixed_point_amended (cfg : TimingConfig) (ws : List Word)
    (ht : 0 ≤ cfg.gap_merge_threshold)
    (hsorted : List.Sorted byStart ws)
    (hstart : ∀ w ∈ ws, 0 ≤ w.start)
    (hdur : ∀ w ∈ ws, effectiveMin cfg w ≤ w.stop - w.start ∧ w.stop - w.start ≤ cfg.max_duration)
    (hpos : ∀ w ∈ ws, w.start < w.stop)
    (hgap : List.Chain'
      (fun a b => a.stop = b.start ∨ a.stop + cfg.gap_merge_threshold < b.start) ws) :
    optimizeTiming cfg ws none = ws := by
  have hchain : List.Chain' (fun a b : Word => a.stop ≤ b.start) ws :=
    hgap.imp fun {a b} h => h.elim le_of_eq fun hlt => by linarith
  cases ws with
  | nil => rfl
  | cons p rest =>
    show validateTiming (applyMaximumDurations cfg (resolveOverlaps cfg (mergeShortGaps cfg
      (applyMinimumDurations cfg (sortByStart (p :: rest)))))) = p :: rest
    rw [sortByStart, hsorted.insertionSort_eq,
      applyMin_id cfg _ (fun w hw => (hdur w hw).1)]
    show validateTiming (applyMaximumDurations cfg (resolveOverlaps cfg
      (mergeGo cfg.gap_merge_threshold p rest))) = p :: rest
    rw [mergeGo_id ht p rest hgap, resolveOverlaps,
      resolveGo_id cfg none (p :: rest) hchain,
      applyMax_id cfg _ (fun w hw => (hdur w hw).2),
      validateTiming_id _ (fun w hw => ⟨hstart w hw, hpos w hw⟩)]

/-- Witness for the amended C3: a concrete normalized two-word list is
a fixed point of `optimize_timing`. -/
theorem c3_fixed_point_amended_witness :
    optimizeTiming defaultConfig [⟨"a", 0, 0.65, true⟩, ⟨"b", 0.8, 1.45, true⟩] none =
      [⟨"a", 0, 0.65, true⟩, ⟨"b", 0.8, 1.45, true⟩] :=
  c3_fixed_point_amended defaultConfig [⟨"a", 0, 0.65, true⟩, ⟨"b", 0.8, 1.45, true⟩]
    (by norm_num [defaultConfig])
    (by norm_num [List.sorted_cons, byStart])
    (by norm_num [List.forall_mem_cons])
    (by norm_num [List.forall_mem_cons, effectiveMin, defaultConfig])
    (by norm_num [List.forall_mem_cons])
    (by norm_num [List.chain'_cons, List.chain'_singleton, defaultConfig])

/-! ## Claim C1 (amended) -/

/-- The minimum-duration phase leaves every start unchanged, so it
preserves strict ordering of starts. -/
theorem applyMin_chain_start (cfg : TimingConfig) (l : List Word)
    (hc : List.Chain' (fun a b : Word => a.start < b.start) l) :
    List.Chain' (fun a b : Word => a.start < b.start) (applyMinimumDurations cfg l) := by
  simp only [applyMinimumDurations]
  rw [List.chain'_map]
  refine hc.imp ?_
  intro a b hab
  dsimp only
  split_ifs <;> exact hab

/-- With a positive `minDuration` and non-negative bonus, every word
leaving the minimum-duration phase has positive duration. -/
theorem applyMin_dur_pos (cfg : TimingConfig) (hmin : 0 < cfg.min_duration)
    (hbonus : 0 ≤ cfg.active_word_bonus) (l : List Word) :
    ∀ w ∈ applyMinimumDurations cfg l, 0 < w.stop - w.start := by
  intro w hw
  simp only [applyMinimumDurations, List.mem_map] at hw
  obtain ⟨v, -, rfl⟩ := hw
  have he : 0 < effectiveMin cfg v := by
    unfold effectiveMin; split_ifs <;> linarith
  split_ifs with h
  · dsimp only; linarith
  · linarith

/-- The minimum-duration phase maps starts onto input starts. -/
theorem applyMin_start_mem (cfg : TimingConfig) (l : List Word) :
    ∀ w ∈ applyMinimumDurations cfg l, ∃ v ∈ l, w.start = v.start := by
  intro w hw
  simp only [applyMinimumDurations, List.mem_map] at hw
  obtain ⟨v, hv, rfl⟩ := hw
  refine ⟨v, hv, ?_⟩
  split_ifs <;> rfl

/-- The head of a merged list keeps the first word's start. -/
theorem mergeGo_head_start (t : ℚ) (p : Word) (ws : List Word) :
    (mergeGo t p ws).head?.map Word.start = some p.start := by
  cases ws with
  | nil => rfl
  | cons cur rest =>
    dsimp only [mergeGo]
    split_ifs <;> rfl

/-- Key gap-merge lemma: on a list with strictly increasing starts and
positive durations, merging leaves no overlap and keeps durations
positive (threshold non-negative). -/
theorem mergeGo_no_overlap {t : ℚ} (ht : 0 ≤ t) : ∀ (p : Word) (ws : List Word),
    List.Chain' (fun a b : Word => a.start < b.start) (p :: ws) →
    (∀ w ∈ p :: ws, 0 < w.stop - w.start) →
    List.Chain' (fun a b : Word => a.stop ≤ b.start) (mergeGo t p ws) ∧
      ∀ w ∈ mergeGo t p ws, 0 < w.stop - w.start
  | p, [], _, hd => by
    dsimp only [mergeGo]
    exact ⟨List.chain'_singleton p, hd⟩
  | p, cur :: rest, hc, hd => by
    obtain ⟨hpc, hrest⟩ := List.chain'_cons.1 hc
    obtain ⟨IH1, IH2⟩ := mergeGo_no_overlap ht cur rest hrest
      fun w hw => hd w (List.mem_cons_of_mem p hw)
    have hhead : ∀ y, (mergeGo t cur rest).head? = some y → y.start = cur.start := by
      intro y hy
      have hmap := mergeGo_head_start t cur rest
      rw [hy] at hmap
      simpa using hmap
    dsimp only [mergeGo]
    split_ifs with hg
    · constructor
      · rw [List.chain'_cons']
        refine ⟨?_, IH1⟩
        intro y hy
        rw [Option.mem_def] at hy
        have := hhead y hy
        show ({ p with stop := cur.start } : Word).stop ≤ y.start
        dsimp only
        rw [this]
      · intro w hw
        rcases List.mem_cons.1 hw with rfl | hw
        · dsimp only; linarith
        · exact IH2 w hw
    · constructor
      · rw [List.chain'_cons']
        refine ⟨?_, IH1⟩
        intro y hy
        rw [Option.mem_def] at hy
        have := hhead y hy
        rw [this]
        push_neg at hg
        linarith
      · intro w hw
        rcases List.mem_cons.1 hw with rfl | hw
        · exact hd w (List.mem_cons_self _ _)
        · exact IH2 w hw

/-- Packaged merge lemma for `mergeShortGaps`. -/
theorem mergeShortGaps_no_overlap {cfg : TimingConfig} (ht : 0 ≤ cfg.gap_merge_threshold)
    (l : List Word) (hc : List.Chain' (fun a b : Word => a.start < b.start) l)
    (hd : ∀ w ∈ l, 0 < w.stop - w.start) :
    List.Chain' (fun a b : Word => a.stop ≤ b.start) (mergeShortGaps cfg l) ∧
      ∀ w ∈ mergeShortGaps cfg l, 0 < w.stop - w.start := by
  cases l with
  | nil => exact ⟨List.chain'_nil, by intro w hw; simp [mergeShortGaps] at hw⟩
  | cons p rest => exact mergeGo_no_overlap ht p rest hc hd

/-- Gap merging maps starts onto input starts. -/
theorem mergeShortGaps_start_mem (cfg : TimingConfig) (l : List Word) :
    ∀ w ∈ mergeShortGaps cfg l, ∃ v ∈ l, w.start = v.start := by
  intro w hw
  have hmap : (mergeShortGaps cfg l).map Word.start = l.map Word.start := by
    cases l with
    | nil => rfl
    | cons p rest => exact mergeGo_map_start _ p rest
  have hin : w.start ∈ (mergeShortGaps cfg l).map Word.start := List.mem_map_of_mem _ hw
  rw [hmap] at hin
  obtain ⟨v, hv, he⟩ := List.mem_map.1 hin
  exact ⟨v, hv, he.symm⟩

/-- The maximum-duration clamp only lowers ends, preserving
non-overlap. -/
theorem applyMax_chain (cfg : TimingConfig) (l : List Word)
    (hc : List.Chain' (fun a b : Word => a.stop ≤ b.start) l) :
    List.Chain' (fun a b : Word => a.stop ≤ b.start) (applyMaximumDurations cfg l) := by
  simp only [applyMaximumDurations]
  rw [List.chain'_map]
  refine hc.imp ?_
  intro a b hab
  dsimp only
  split_ifs with h1 h2 <;> (try dsimp only) <;> linarith

/-- The maximum-duration clamp keeps durations positive when the
maximum is positive, and keeps every start. -/
theorem applyMax_mem (cfg : TimingConfig) (hmax : 0 < cfg.max_duration) (l : List Word) :
    ∀ w ∈ applyMaximumDurations cfg l,
      ∃ v ∈ l, w.start = v.start ∧ (0 < v.stop - v.start → 0 < w.stop - w.start) := by
  intro w hw
  simp only [applyMaximumDurations, List.mem_map] at hw
  obtain ⟨v, hv, rfl⟩ := hw
  refine ⟨v, hv, ?_, ?_⟩ <;> split_ifs with h <;> (try dsimp only) <;> intro <;> linarith

/-- Claim C1, amended: with no clip duration, a non-negative
`gapMergeThreshold`, positive `minDuration` and `maxDuration`,
non-negative `activeWordBonus`, and input words with non-negative,
pairwise-distinct starts, the output of `optimize_timing` is
non-overlapping: `end[i] ≤ start[i+1]` for every adjacent pair.  (The
unconditional claim fails — see the counterexample, where two words
share a start.) -/
theorem c1_no_overlap_amended (cfg : TimingConfig) (ws : List Word)
    (ht : 0 ≤ cfg.gap_merge_threshold) (hmax : 0 < cfg.max_duration)
    (hmin : 0 < cfg.min_duration) (hbonus : 0 ≤ cfg.active_word_bonus)
    (hstart : ∀ w ∈ ws, 0 ≤ w.start)
    (hdist : List.Pairwise (fun a b : Word => a.start ≠ b.start) ws) :
    List.Chain' (fun a b : Word => a.stop ≤ b.start) (optimizeTiming cfg ws none) := by
  cases ws with
  | nil => exact List.chain'_nil
  | cons p rest =>
    have hperm : List.Perm (sortByStart (p :: rest)) (p :: rest) :=
      List.perm_insertionSort byStart _
    have hsorted : List.Pairwise byStart (sortByStart (p :: rest)) :=
      List.sorted_insertionSort byStart _
    have hdist' : List.Pairwise (fun a b : Word => a.start ≠ b.start) (sortByStart (p :: rest)) :=
      (hperm.pairwise_iff fun h => Ne.symm h).2 hdist
    have hchain_s : List.Chain' (fun a b : Word => a.start < b.start) (sortByStart (p :: rest)) :=
      ((hsorted.and hdist').imp fun h => lt_of_le_of_ne h.1 h.2).chain'
    have hstart_s : ∀ w ∈ sortByStart (p :: rest), 0 ≤ w.start :=
      fun w hw => hstart w (hperm.mem_iff.1 hw)
    -- minimum-duration phase
    have hchain_m := applyMin_chain_start cfg _ hchain_s
    have hdur_m := applyMin_dur_pos cfg hmin hbonus (sortByStart (p :: rest))
    have hstart_m : ∀ w ∈ applyMinimumDurations cfg (sortByStart (p :: rest)), 0 ≤ w.start := by
      intro w hw
      obtain ⟨v, hv, he⟩ := applyMin_start_mem cfg _ w hw
      rw [he]; exact hstart_s v hv
    -- gap merging
    obtain ⟨hchain_g, hdur_g⟩ := mergeShortGaps_no_overlap ht _ hchain_m hdur_m
    have hstart_g : ∀ w ∈ mergeShortGaps cfg (applyMinimumDurations cfg
        (sortByStart (p :: rest))), 0 ≤ w.start := by
      intro w hw
      obtain ⟨v, hv, he⟩ := mergeShortGaps_start_mem cfg _ w hw
      rw [he]; exact hstart_m v hv
    -- overlap resolution is the identity here
    have hres := resolveGo_id cfg none _ hchain_g
    -- maximum-duration clamp
    have hchain_x := applyMax_chain cfg _ hchain_g
    have hmem_x := applyMax_mem cfg hmax
      (mergeShortGaps cfg (applyMinimumDurations cfg (sortByStart (p :: rest))))
    show List.Chain' (fun a b : Word => a.stop ≤ b.start)
      (validateTiming (applyMaximumDurations cfg (resolveOverlaps cfg (mergeShortGaps cfg
        (applyMinimumDurations cfg (sortByStart (p :: rest)))))))
    rw [resolveOverlaps, hres]
    rw [validateTiming_id]
    · exact hchain_x
    · intro w hw
      obtain ⟨v, hv, he, hd⟩ := hmem_x w hw
      exact ⟨he ▸ hstart_g v hv, by have := hd (hdur_g v hv); linarith⟩

/-- Witness for the amended C1 at a concrete input with distinct
non-negative starts. -/
theorem c1_no_overlap_amended_witness :
    List.Chain' (fun a b : Word => a.stop ≤ b.start)
      (optimizeTiming defaultConfig [⟨"a", 0, 0.1, true⟩, ⟨"b", 2, 2.2, true⟩] none) :=
  c1_no_overlap_amended defaultConfig [⟨"a", 0, 0.1, true⟩, ⟨"b", 2, 2.2, true⟩]
    (by norm_num [defaultConfig]) (by norm_num [defaultConfig])
    (by norm_num [defaultConfig]) (by norm_num [defaultConfig])
    (by norm_num [List.forall_mem_cons])
    (by norm_num [List.pairwise_cons])

/-! ## Claim C10 -/



/-- Claim C10: on every non-empty word list, `estimate_reading_load`
classifies difficulty by active-words-per-second against the fixed
thresholds (`> 3.5` Very Hard, `> 2.5` Hard, `> 1.5` Medium, else Easy)
and recommends a minimum duration of 0.4 when the rate exceeds 2.5 and
0.3 otherwise; in particular, 5 active words spanning 2.3 s give
50/23 ≈ 2.17 words per second and difficulty "Medium". -/
theorem c10_reading_load :
    (∀ (ws : List Word) (l : ReadingLoad), estimateReadingLoad ws = some l →
      (3.5 < l.words_per_second → l.reading_difficulty = "Very Hard") ∧
      (2.5 < l.words_per_second → l.words_per_second ≤ 3.5 →
        l.reading_difficulty = "Hard") ∧
      (1.5 < l.words_per_second → l.words_per_second ≤ 2.5 →
        l.reading_difficulty = "Medium") ∧
      (l.words_per_second ≤ 1.5 → l.reading_difficulty = "Easy") ∧
      (2.5 < l.words_per_second → l.recommended_min_duration = 0.4) ∧
      (l.words_per_second ≤ 2.5 → l.recommended_min_duration = 0.3)) ∧
      (estimateReadingLoad fiveActiveWords).map
          (fun l => (l.words_per_second, l.reading_difficulty, l.recommended_min_duration)) =
        some (50 / 23, "Medium", 0.3) ∧
      (2.1 : ℚ) < 50 / 23 ∧ (50 / 23 : ℚ) < 2.2 := by
  refine ⟨?_, by norm_num [estimateReadingLoad, fiveActiveWords, lastWord], by norm_num,
    by norm_num⟩
  intro ws l h
  match ws, h with
  | w0 :: rest, h =>
    simp only [estimateReadingLoad, Option.some.injEq] at h
    subst h
    dsimp only
    refine ⟨fun h1 => ?_, fun h1 h2 => ?_, fun h1 h2 => ?_, fun h1 => ?_,
      fun h1 => ?_, fun h1 => ?_⟩
    · rw [if_pos h1]
    · rw [if_neg (not_lt.2 h2), if_pos h1]
    · rw [if_neg (by linarith : ¬(3.5 : ℚ) < _), if_neg (not_lt.2 h2), if_pos h1]
    · rw [if_neg (by linarith : ¬(3.5 : ℚ) < _), if_neg (by linarith : ¬(2.5 : ℚ) < _),
        if_neg (not_lt.2 h1)]
    · rw [if_pos h1]
    · rw [if_neg (not_lt.2 h1)]

/-- Witness for C10: the scenario record, with difficulty and
recommendation read off through the theorem. -/
theorem c10_reading_load_witness :
    estimateReadingLoad fiveActiveWords = some loadC10 ∧
      loadC10.reading_difficulty = "Medium" ∧
      loadC10.recommended_min_duration = 0.3 := by
  have h : estimateReadingLoad fiveActiveWords = some loadC10 := by
    norm_num [estimateReadingLoad, fiveActiveWords, lastWord, loadC10, ReadingLoad.mk.injEq]
  refine ⟨h, ?_, ?_⟩
  · exact (c10_reading_load.1 fiveActiveWords loadC10 h).2.2.1
      (by norm_num [loadC10]) (by norm_num [loadC10])
  · exact (c10_reading_load.1 fiveActiveWords loadC10 h).2.2.2.2.2
      (by norm_num [loadC10])

/-! ## Grouping lemmas (claims C9 and C4) -/

theorem getLast?_cons_getLastD (f : Word) : ∀ r : List Word,
    (f :: r).getLast? = some (r.getLastD f)
  | [] => rfl
  | x :: xs => by
    rw [List.getLast?_cons_cons, getLast?_cons_getLastD x xs, List.getLastD_cons]

theorem groupFirstStart_cons (f : Word) (r : List Word) :
    groupFirstStart (f :: r) = f.start := rfl

theorem groupLastStop_cons (f : Word) (r : List Word) :
    groupLastStop (f :: r) = (lastWord f r).stop := by
  rw [groupLastStop, getLast?_cons_getLastD]
  rfl

/-- Grouping never loses or reorders words: the groups concatenate back
to the input. -/
theorem groupLoop_join : ∀ (ws : List Word) (f : Word) (r : List Word),
    (groupLoop f r ws).flatten = (f :: r) ++ ws
  | [], f, r => by simp [groupLoop]
  | w :: ws, f, r => by
    dsimp only [groupLoop]
    split_ifs with h
    · simp [groupLoop_join ws w []]
    · simp [groupLoop_join ws f (r ++ [w])]

/-- Every group emitted by the loop is non-empty. -/
theorem groupLoop_ne : ∀ (ws : List Word) (f : Word) (r : List Word),
    ∀ g ∈ groupLoop f r ws, g ≠ []
  | [], f, r => by
    intro g hg
    simp only [groupLoop, List.mem_singleton] at hg
    simp [hg]
  | w :: ws, f, r => by
    intro g hg
    dsimp only [groupLoop] at hg
    split_ifs at hg with h
    · rcases List.mem_cons.1 hg with rfl | hg
      · simp
      · exact groupLoop_ne ws w [] g hg
    · exact groupLoop_ne ws f (r ++ [w]) g hg

/-- The first emitted group extends the current group `f :: r`. -/
theorem groupLoop_head : ∀ (ws : List Word) (f : Word) (r : List Word),
    ∃ t gs, groupLoop f r ws = ((f :: r) ++ t) :: gs
  | [], f, r => ⟨[], [], by simp [groupLoop]⟩
  | w :: ws, f, r => by
    dsimp only [groupLoop]
    split_ifs with h
    · exact ⟨[], groupLoop w [] ws, by simp⟩
    · obtain ⟨t, gs, he⟩ := groupLoop_head ws f (r ++ [w])
      exact ⟨w :: t, gs, by simpa using he⟩

/-- Adjacent emitted groups are always separated by a break: the later
group's first word satisfied one of the three break conditions against
the earlier (fully formed) group. -/
theorem groupLoop_chain : ∀ (ws : List Word) (f : Word) (r : List Word),
    List.Chain' brkBetween (groupLoop f r ws)
  | [], f, r => List.chain'_singleton _
  | w :: ws, f, r => by
    dsimp only [groupLoop]
    split_ifs with h
    · rw [List.chain'_cons']
      refine ⟨?_, groupLoop_chain ws w []⟩
      intro g' hg'
      rw [Option.mem_def] at hg'
      obtain ⟨t, gs, he⟩ := groupLoop_head ws w []
      simp only [List.singleton_append] at he
      rw [he] at hg'
      simp only [List.head?_cons, Option.some.injEq] at hg'
      subst hg'
      unfold brkBetween
      rw [groupFirstStart_cons, groupFirstStart_cons, groupLastStop_cons]
      exact h
    · exact groupLoop_chain ws f (r ++ [w])

/-- Appending a word to the group state preserves / extends the
no-internal-break invariant. -/
theorem noBreakGo_append (f w : Word) : ∀ (r : List Word) (n : ℕ) (last : Word),
    noBreakGo f n last (r ++ [w]) ↔
      noBreakGo f n last r ∧
        (n + r.length < 6 ∧ w.start - f.start ≤ 3.5 ∧
          w.start - (r.getLastD last).stop ≤ 0.8)
  | [], n, last => by
    simp [noBreakGo]
  | x :: xs, n, last => by
    rw [List.cons_append]
    simp only [noBreakGo]
    rw [noBreakGo_append f w xs (n + 1) x, List.getLastD_cons, List.length_cons]
    constructor
    · rintro ⟨hx, hgo, hlen, h35, h08⟩
      exact ⟨⟨hx, hgo⟩, by omega, h35, h08⟩
    · rintro ⟨⟨hx, hgo⟩, hlen, h35, h08⟩
      exact ⟨hx, hgo, by omega, h35, h08⟩

/-- Every group emitted by the loop is internally break-free: no word
after the first satisfied a break condition when it was appended. -/
theorem groupLoop_ok : ∀ (ws : List Word) (f : Word) (r : List Word),
    noInternalBreak (f :: r) → ∀ g ∈ groupLoop f r ws, noInternalBreak g
  | [], f, r, hok => by
    intro g hg
    simp only [groupLoop, List.mem_singleton] at hg
    exact hg ▸ hok
  | w :: ws, f, r, hok => by
    intro g hg
    dsimp only [groupLoop] at hg
    split_ifs at hg with h
    · rcases List.mem_cons.1 hg with rfl | hg
      · exact hok
      · exact groupLoop_ok ws w [] trivial g hg
    · refine groupLoop_ok ws f (r ++ [w]) ?_ g hg
      simp only [noInternalBreak] at hok ⊢
      rw [noBreakGo_append f w r 1 f]
      refine ⟨hok, ?_⟩
      unfold shouldBreakGroup at h
      push_neg at h
      obtain ⟨h1, h2, h3⟩ := h
      refine ⟨?_, h2, h3⟩
      simp only [List.length_cons] at h1
      omega

/-- Behaviour of the group-truncation step when the earlier group was
closed by a genuine break: the group survives and keeps its first
word's identity (a singleton's word can be truncated but never
popped). -/
theorem truncGroup_sig (x : Word) (xs : List Word) (ns : ℚ)
    (hbrk : 6 ≤ (x :: xs).length ∨ 3.5 < ns - x.start ∨
      0.8 < ns - (xs.getLastD x).stop) :
    truncGroup (x :: xs) ns ≠ [] ∧
      headSig (truncGroup (x :: xs) ns) = headSig (x :: xs) := by
  unfold truncGroup
  rw [getLast?_cons_getLastD]
  dsimp only
  split_ifs with h1 h2
  · -- truncated and popped
    cases xs with
    | nil =>
      exfalso
      dsimp only [List.getLastD] at h1 h2 hbrk
      rcases hbrk with h6 | h35 | h08
      · simp at h6
      · linarith
      · linarith
    | cons y ys =>
      constructor
      · simp [List.dropLast]
      · simp [List.dropLast, headSig]
  · -- truncated, not popped
    cases xs with
    | nil =>
      constructor
      · simp
      · simp [headSig, List.dropLast, List.getLastD]
    | cons y ys =>
      constructor
      · simp
      · simp [headSig, List.dropLast]
  · exact ⟨List.cons_ne_nil x xs, rfl⟩

/-- The overlap fix preserves the number of groups and each group's
first word (text and start) when every adjacent pair is separated by a
genuine break. -/
theorem fixLoop_sig : ∀ (groups : List (List Word)),
    (∀ g ∈ groups, g ≠ []) → List.Chain' brkBetween groups →
    (fixLoop groups).map headSig = groups.map headSig
  | [], _, _ => rfl
  | [g], hne, _ => by
    rw [fixLoop, if_neg]
    simpa [List.isEmpty_iff] using hne g (List.mem_singleton_self g)
  | g :: g' :: rest, hne, hch => by
    obtain ⟨hb, hch'⟩ := List.chain'_cons.1 hch
    have hg : g ≠ [] := hne g (by simp)
    have hg' : g' ≠ [] := hne g' (by simp)
    obtain ⟨x, xs, rfl⟩ := List.exists_cons_of_ne_nil hg
    have hbrk : 6 ≤ (x :: xs).length ∨ 3.5 < groupFirstStart g' - x.start ∨
        0.8 < groupFirstStart g' - (xs.getLastD x).stop := by
      unfold brkBetween at hb
      rw [groupFirstStart_cons, groupLastStop_cons] at hb
      exact hb
    obtain ⟨hfne, hfsig⟩ := truncGroup_sig x xs (groupFirstStart g') hbrk
    dsimp only [fixLoop]
    rw [if_neg (by simp), if_neg (by simpa [List.isEmpty_iff] using hg'),
      if_neg (by simpa [List.isEmpty_iff] using hfne)]
    simp only [List.map_cons]
    rw [hfsig,
      fixLoop_sig (g' :: rest) (fun h hh => hne h (List.mem_cons_of_mem _ hh)) hch']
    rfl

/-- The wrapper preserves group count and first-word identities under
genuine breaks. -/
theorem fixSentence_sig (groups : List (List Word))
    (hne : ∀ g ∈ groups, g ≠ []) (hch : List.Chain' brkBetween groups) :
    (fixSentenceTimingOverlaps groups).map headSig = groups.map headSig := by
  unfold fixSentenceTimingOverlaps
  split_ifs with h
  · rfl
  · exact fixLoop_sig groups hne hch

/-! ## Claim C9 -/



/-- Claim C9: the grouper starts a new group exactly when the current
group already has ≥ 6 words, or the word's start exceeds the group's
first start by more than 3.5 s, or its last end by more than 0.8 s —
(i) grouping loses no word (the groups flatten back to the input),
(ii) every group is non-empty and internally break-free (no word after
the first satisfied a break condition), (iii) adjacent groups are
separated by a genuine break (the triggering word begins the new
group), (iv) the overlap fix never drops a triggering word — it
preserves every group and its first word — and (v) seven words 0.3 s
apart with no gaps split into words 1–6 and word 7. -/
theorem c9_grouping :
    (∀ ws : List Word, (groupWordsRaw ws).flatten = ws) ∧
      (∀ ws : List Word, ∀ g ∈ groupWordsRaw ws, g ≠ [] ∧ noInternalBreak g) ∧
      (∀ ws : List Word, List.Chain' brkBetween (groupWordsRaw ws)) ∧
      (∀ ws : List Word,
        (fixSentenceTimingOverlaps (groupWordsRaw ws)).map headSig =
          (groupWordsRaw ws).map headSig) ∧
      (groupWordsIntoSentences sevenEvenWords).map (List.map Word.text) =
        [["w1", "w2", "w3", "w4", "w5", "w6"], ["w7"]] := by
  refine ⟨?_, ?_, ?_, ?_, ?_⟩
  · intro ws
    cases ws with
    | nil => rfl
    | cons w rest => exact groupLoop_join rest w []
  · intro ws g hg
    cases ws with
    | nil => simp [groupWordsRaw] at hg
    | cons w rest =>
      exact ⟨groupLoop_ne rest w [] g hg, groupLoop_ok rest w [] trivial g hg⟩
  · intro ws
    cases ws with
    | nil => exact List.chain'_nil
    | cons w rest => exact groupLoop_chain rest w []
  · intro ws
    cases ws with
    | nil => rfl
    | cons w rest =>
      exact fixSentence_sig _ (groupLoop_ne rest w []) (groupLoop_chain rest w [])
  · norm_num [groupWordsIntoSentences, fixSentenceTimingOverlaps, fixLoop, truncGroup,
      groupWordsRaw, groupLoop, shouldBreakGroup, lastWord, groupFirstStart,
      sevenEvenWords, List.getLastD]

/-- Witness for C9 applied to a concrete singleton grouping. -/
theorem c9_grouping_witness :
    ([⟨"a", 0, 1, true⟩] : List Word) ≠ [] ∧ noInternalBreak [⟨"a", 0, 1, true⟩] :=
  c9_grouping.2.1 [⟨"a", 0, 1, true⟩] [⟨"a", 0, 1, true⟩]
    (by norm_num [groupWordsRaw, groupLoop])

/-! ## Claim C4 -/



theorem groupLastStart_cons (f : Word) (r : List Word) :
    groupLastStart (f :: r) = (lastWord f r).start := by
  rw [groupLastStart, getLast?_cons_getLastD]
  rfl

/-- When no pop can fire, the truncation step keeps the group
non-empty, keeps its first start and leaves its last end strictly
before the next group's first start. -/
theorem truncGroup_noPop (x : Word) (xs : List Word) (ns : ℚ)
    (hnp : (xs.getLastD x).stop < ns ∨ (xs.getLastD x).start < ns - 0.05) :
    truncGroup (x :: xs) ns ≠ [] ∧
      groupFirstStart (truncGroup (x :: xs) ns) = x.start ∧
      groupLastStop (truncGroup (x :: xs) ns) < ns := by
  unfold truncGroup
  rw [getLast?_cons_getLastD]
  try dsimp only
  split_ifs with h1 h2
  · exfalso
    try dsimp only at h2
    rcases hnp with ha | hb
    · linarith
    · linarith
  · refine ⟨by simp, ?_, ?_⟩
    · cases xs with
      | nil => simp [groupFirstStart, List.dropLast]
      | cons y ys => simp [groupFirstStart, List.dropLast]
    · rw [groupLastStop, List.getLast?_concat]
      simp only [Option.map_some', Option.getD_some]
      try dsimp only
      linarith
  · exact ⟨List.cons_ne_nil x xs, rfl, by rw [groupLastStop_cons]; exact not_le.1 h1⟩

/-- Under the no-pop side condition, the fix keeps the head group and
its first start. -/
theorem fixLoop_head_firstStart : ∀ (g' : List Word) (rest : List (List Word)),
    g' ≠ [] → (∀ g ∈ g' :: rest, g ≠ []) → List.Chain' noPopBetween (g' :: rest) →
    ∃ t gs, fixLoop (g' :: rest) = t :: gs ∧ groupFirstStart t = groupFirstStart g'
  | g', [], hg', _, _ => by
    refine ⟨g', [], ?_, rfl⟩
    rw [fixLoop, if_neg (by simpa [List.isEmpty_iff] using hg')]
  | g', r :: rs, hg', hne, hch => by
    obtain ⟨hb, hch'⟩ := List.chain'_cons.1 hch
    have hr : r ≠ [] := hne r (by simp)
    obtain ⟨x, xs, rfl⟩ := List.exists_cons_of_ne_nil hg'
    have hbraw : (xs.getLastD x).stop < groupFirstStart r ∨
        (xs.getLastD x).start < groupFirstStart r - 0.05 := by
      unfold noPopBetween at hb
      rw [groupLastStop_cons, groupLastStart_cons] at hb
      exact hb
    obtain ⟨hfne, hffs, -⟩ := truncGroup_noPop x xs (groupFirstStart r) hbraw
    dsimp only [fixLoop]
    rw [if_neg (by simp), if_neg (by simpa [List.isEmpty_iff] using hr),
      if_neg (by simpa [List.isEmpty_iff] using hfne)]
    exact ⟨_, _, rfl, by rw [hffs, groupFirstStart_cons]⟩

/-- Under the no-pop side condition, the fix output satisfies the
adjacent-group no-overlap invariant. -/
theorem fixLoop_no_overlap : ∀ (groups : List (List Word)),
    (∀ g ∈ groups, g ≠ []) → List.Chain' noPopBetween groups →
    List.Chain' (fun g g' => groupLastStop g ≤ groupFirstStart g') (fixLoop groups)
  | [], _, _ => List.chain'_nil
  | [g], hne, _ => by
    rw [fixLoop, if_neg (by simpa [List.isEmpty_iff] using hne g (by simp))]
    exact List.chain'_singleton g
  | g :: g' :: rest, hne, hch => by
    obtain ⟨hb, hch'⟩ := List.chain'_cons.1 hch
    have hg : g ≠ [] := hne g (by simp)
    have hg' : g' ≠ [] := hne g' (by simp)
    obtain ⟨x, xs, rfl⟩ := List.exists_cons_of_ne_nil hg
    have hbraw : (xs.getLastD x).stop < groupFirstStart g' ∨
        (xs.getLastD x).start < groupFirstStart g' - 0.05 := by
      unfold noPopBetween at hb
      rw [groupLastStop_cons, groupLastStart_cons] at hb
      exact hb
    obtain ⟨hfne, hffs, hfls⟩ := truncGroup_noPop x xs (groupFirstStart g') hbraw
    dsimp only [fixLoop]
    rw [if_neg (by simp), if_neg (by simpa [List.isEmpty_iff] using hg'),
      if_neg (by simpa [List.isEmpty_iff] using hfne)]
    rw [List.chain'_cons']
    refine ⟨?_, fixLoop_no_overlap (g' :: rest)
      (fun h hh => hne h (List.mem_cons_of_mem _ hh)) hch'⟩
    intro t ht
    obtain ⟨t0, gs0, he, hfs⟩ := fixLoop_head_firstStart g' rest hg'
      (fun h hh => hne h (List.mem_cons_of_mem _ hh)) hch'
    rw [Option.mem_def, he] at ht
    simp only [List.head?_cons, Option.some.injEq] at ht
    subst ht
    rw [hfs]
    exact le_of_lt hfls

/-- Claim C4, amended: the overlap fix behaves as described (truncate
to next start − 0.05, pop the word when its duration becomes
non-positive, drop an emptied group), and the adjacent-group invariant
`group_k.last.end ≤ group_{k+1}.first.start` holds whenever no word is
popped — made precise by the `noPopBetween` side condition on adjacent
groups.  When a pop does fire, the newly exposed last word is never
re-checked and the invariant can fail — see the counterexample. -/
theorem c4_group_overlap_amended (groups : List (List Word))
    (hne : ∀ g ∈ groups, g ≠ [])
    (hnp : List.Chain' noPopBetween groups) :
    List.Chain' (fun g g' => groupLastStop g ≤ groupFirstStart g')
      (fixSentenceTimingOverlaps groups) := by
  unfold fixSentenceTimingOverlaps
  split_ifs with h
  · cases groups with
    | nil => exact List.chain'_nil
    | cons g rest =>
      cases rest with
      | nil => exact List.chain'_singleton g
      | cons g' rest' =>
        simp only [List.length_cons] at h
        omega
  · exact fixLoop_no_overlap groups hne hnp

/-- Witness for the amended C4 at a concrete two-group input. -/
theorem c4_group_overlap_amended_witness :
    List.Chain' (fun g g' => groupLastStop g ≤ groupFirstStart g')
      (fixSentenceTimingOverlaps [[⟨"a", 0, 1, true⟩], [⟨"b", 2, 3, true⟩]]) :=
  c4_group_overlap_amended [[⟨"a", 0, 1, true⟩], [⟨"b", 2, 3, true⟩]]
    (by simp)
    (by norm_num [List.chain'_cons, List.chain'_singleton, noPopBetween,
      groupLastStop, groupFirstStart, groupLastStart])

/-- Counterexample to claim C4: on seven start-sorted words, the first
group's over-long sixth word is truncated and popped, exposing a fifth
word that still ends (at 4.0) far past the second group's first start
(0.52) — the adjacent-group invariant fails after the fix. -/
theorem c4_counterexample :
    ¬ List.Chain' (fun g g' => groupLastStop g ≤ groupFirstStart g')
      (groupWordsIntoSentences
        [⟨"w1", 0, 5, true⟩, ⟨"w2", 0.1, 0.2, true⟩, ⟨"w3", 0.2, 0.3, true⟩,
          ⟨"w4", 0.3, 0.4, true⟩, ⟨"w5", 0.4, 4, true⟩, ⟨"w6", 0.5, 0.6, true⟩,
          ⟨"w7", 0.52, 2, true⟩]) := by
  norm_num [groupWordsIntoSentences, fixSentenceTimingOverlaps, fixLoop, truncGroup,
    groupWordsRaw, groupLoop, shouldBreakGroup, lastWord, groupFirstStart, groupLastStop,
    List.getLastD, List.chain'_cons, List.chain'_singleton]

end CapFuse
